import Mathlib

/-
Shallow embedding of the Lamport one-time signature notebooks
(naive mode, short-private-key mode, short-public-key mode).

Conventions of the embedding:
- Python `bytes` values are `List Nat` (each entry one byte; byte-range
  constraints are irrelevant to the claims and are not imposed).
- The SHA3-256 primitive is a black-box parameter `H : List Nat -> List Nat`;
  the one contract the code relies on is that a message digest has 32 bytes,
  which appears as a hypothesis where a claim needs it.
- The AES-CTR keystream is a black-box parameter
  `ks : key -> nonce -> position -> List Nat`, one 32-byte segment per
  `encryptor.update` call; the encryptor object itself is embedded as an
  explicit state record whose position advances on every update.
- Python exceptions (IndexError from list indexing, OverflowError from
  `int.to_bytes`, the cipher constructor rejecting wrong seed widths, and
  the unbounded recursion of `merkle_root` on an empty list) are embedded
  as `Option.none`; fallible functions return `Option`.
- Messages are byte sequences: the notebooks hash `message.encode()`, and
  the encoding of text to bytes is outside the modeled core, so `m : List Nat`
  stands for the encoded message.
-/

/-- Bytes abbreviates the type used to embed Python byte strings. -/
abbrev Bytes : Type := List Nat

/-- security_parameter = 256, as in the notebooks. -/
def security_parameter : Nat := 256

/-- max_message_length = 256, as in the notebooks. -/
def max_message_length : Nat := 256

/-- optTraverse runs an Option-valued function over a list left to right,
failing at the first failure, as a Python loop of fallible steps does. -/
def optTraverse : List α → (α → Option β) → Option (List β)
  | [], _ => some []
  | a :: as, f => do
    let b ← f a
    let bs ← optTraverse as f
    pure (b :: bs)

/-- toBytesBE is Python int.to_bytes with byteorder big: the fixed-width
big-endian byte string of a number (the in-range guard lives at call sites). -/
def toBytesBE (w e : Nat) : Bytes :=
  (List.range w).map (fun i => e / 256 ^ (w - 1 - i) % 256)

/-- hash_key_element of the naive notebook: convert an int key element to 32
big-endian bytes and hash it.  Python raises OverflowError when the element
does not fit 32 bytes; that failure is the none branch. -/
def hash_key_element (H : Bytes → Bytes) (e : Nat) : Option Bytes :=
  if e < 2 ^ security_parameter then
    some (H (toBytesBE (security_parameter / 8) e))
  else none

/-- hash_message hashes the (already encoded) message bytes. -/
def hash_message (H : Bytes → Bytes) (m : Bytes) : Bytes := H m

/-- hash_bytes of the short-key notebooks is the hash primitive itself. -/
def hash_bytes (H : Bytes → Bytes) (b : Bytes) : Bytes := H b

/-- choose_key_elements: the double loop of the notebooks.  For byte i and
bit j the mask is 128 >>> j (most significant bit first), the bit index is
i * 8 + j, and the chosen table index is 2 * bit_index + key_bit.  Indexing
message_hash or key out of range is a Python IndexError, hence none. -/
def choose_key_elements (mh : Bytes) (key : List α) : Option (List α) := do
  let rows ← optTraverse (List.range (max_message_length / 8)) (fun i => do
    optTraverse (List.range 8) (fun j => do
      let mhByte ← mh[i]?
      let keyBit := if mhByte &&& (128 >>> j) != 0 then 1 else 0
      key[2 * (i * 8 + j) + keyBit]?))
  pure rows.flatten

/-- convert_bytes_to_bits of the short-public-key notebook: for each byte,
eight bits most significant first.  The index i is always in range inside
the loop, so the plain getD is faithful. -/
def convert_bytes_to_bits (b : Bytes) : List Bool :=
  ((List.range b.length).map (fun i =>
    (List.range 8).map (fun j => b.getD i 0 &&& (128 >>> j) != 0))).flatten

/-- merkleRootFuel is merkle_root with an explicit recursion budget so that
the definition is structural and kernel-computable; merkle_root below always
supplies a sufficient budget.  A single leaf is returned unhashed; an empty
list, on which the Python source recurses without bound, is a failure. -/
def merkleRootFuel (H : Bytes → Bytes) : Nat → List Bytes → Option Bytes
  | _, [] => none
  | _, [x] => some x
  | 0, _ :: _ :: _ => none
  | fuel + 1, a :: b :: rest => do
    let ls := a :: b :: rest
    let left ← merkleRootFuel H fuel (ls.take (ls.length / 2))
    let right ← merkleRootFuel H fuel (ls.drop (ls.length / 2))
    some (H (left ++ right))

/-- merkle_root of the short-public-key notebook: recursive halving, the
left half taking the floor of the midpoint. -/
def merkle_root (H : Bytes → Bytes) (ls : List Bytes) : Option Bytes :=
  merkleRootFuel H ls.length ls

/-- generate_public_key of the naive notebook: hash every private key
element (failing if an element does not fit 32 bytes). -/
def generate_public_key_naive (H : Bytes → Bytes) (sk : List Nat) :
    Option (List Bytes) :=
  optTraverse sk (hash_key_element H)

/-- sign_message of the naive notebook. -/
def sign_message_naive (H : Bytes → Bytes) (m : Bytes) (sk : List Nat) :
    Option (List Nat) :=
  choose_key_elements (hash_message H m) sk

/-- verify_signature of the naive notebook: select the public key elements
for the digest bits and compare them to the element-wise hash of the
signature with Python list equality. -/
def verify_signature_naive (H : Bytes → Bytes) (m : Bytes)
    (pk : List Bytes) (sig : List Nat) : Option Bool := do
  let chosen ← choose_key_elements (hash_message H m) pk
  let derived ← optTraverse sig (hash_key_element H)
  pure (chosen == derived)

/-- PrivateKeySeed is the dictionary private key of the short-private-key
notebook: a CSPRNG key and a nonce. -/
structure PrivateKeySeed where
  key : Bytes
  nonce : Bytes
  deriving DecidableEq

/-- AesCtrEncryptor embeds the stateful cipher.encryptor() object: its key,
its nonce, and how many update calls it has served. -/
structure AesCtrEncryptor where
  key : Bytes
  nonce : Bytes
  pos : Nat

/-- encUpdate is one encryptor.update(pt) call: XOR the plaintext with the
next keystream segment and advance the encryptor position. -/
def encUpdate (ks : Bytes → Bytes → Nat → Bytes) (s : AesCtrEncryptor)
    (pt : Bytes) : Bytes × AesCtrEncryptor :=
  (List.zipWith (fun a b => a ^^^ b) pt (ks s.key s.nonce s.pos),
   { s with pos := s.pos + 1 })

/-- encRun performs n successive update calls on the same plaintext,
collecting the ciphertexts, threading the encryptor state. -/
def encRun (ks : Bytes → Bytes → Nat → Bytes) :
    Nat → AesCtrEncryptor → Bytes → List Bytes × AesCtrEncryptor
  | 0, s, _ => ([], s)
  | n + 1, s, pt =>
    let step := encUpdate ks s pt
    let rest := encRun ks n step.2 pt
    (step.1 :: rest.1, rest.2)

/-- zero_bytes of expand_private_key: (0).to_bytes(length 32, big). -/
def zero_bytes : Bytes := toBytesBE 32 0

/-- expand_private_key: build a fresh AES256-CTR encryptor from the seed and
encrypt 2 * max_message_length zero blocks.  The cipher constructor rejects
a key that is not 32 bytes or a nonce that is not 16 bytes (the external
library's InvalidSeedLength-style failure), hence the guard. -/
def expand_private_key (ks : Bytes → Bytes → Nat → Bytes)
    (sk : PrivateKeySeed) : Option (List Bytes) :=
  if sk.key.length = 32 ∧ sk.nonce.length = 16 then
    some (encRun ks (2 * max_message_length) ⟨sk.key, sk.nonce, 0⟩
      zero_bytes).1
  else none

/-- generate_public_key of the short-private-key notebook: expand the seed,
then hash every expanded element. -/
def generate_public_key_short_private (ks : Bytes → Bytes → Nat → Bytes)
    (H : Bytes → Bytes) (sk : PrivateKeySeed) : Option (List Bytes) := do
  let epk ← expand_private_key ks sk
  pure (epk.map (hash_bytes H))

/-- sign_message of the short-private-key notebook: expand, then select. -/
def sign_message_short_private (ks : Bytes → Bytes → Nat → Bytes)
    (H : Bytes → Bytes) (m : Bytes) (sk : PrivateKeySeed) :
    Option (List Bytes) := do
  let epk ← expand_private_key ks sk
  choose_key_elements (hash_message H m) epk

/-- verify_signature of the short-private-key notebook: identical logic to
the naive mode, with byte-string elements hashed by hash_bytes (total). -/
def verify_signature_short_private (H : Bytes → Bytes) (m : Bytes)
    (pk : List Bytes) (sig : List Bytes) : Option Bool := do
  let chosen ← choose_key_elements (hash_message H m) pk
  pure (chosen == sig.map (hash_bytes H))

/-- joinPairs flattens a list of pairs into the per-position appends of the
short-public-key loops (first component first). -/
def joinPairs : List (α × α) → List α
  | [] => []
  | p :: ps => p.1 :: p.2 :: joinPairs ps

/-- generate_public_key of the short-public-key notebook: hash every private
key element and commit to the sequence with the Merkle root. -/
def generate_public_key_short_public (H : Bytes → Bytes)
    (sk : List Bytes) : Option Bytes :=
  merkle_root H (sk.map (hash_bytes H))

/-- sign_message of the short-public-key notebook: per digest bit, append
the raw chosen-branch element and the hash of the unchosen-branch element
(raw first when the bit is 0, hash first when the bit is 1). -/
def sign_message_short_public (H : Bytes → Bytes) (m : Bytes)
    (sk : List Bytes) : Option (List Bytes) := do
  let pairs ← optTraverse
    (List.range (convert_bytes_to_bits (hash_message H m)).length) (fun i => do
      let a ← sk[2 * i]?
      let b ← sk[2 * i + 1]?
      pure (if (convert_bytes_to_bits (hash_message H m)).getD i false
        then (hash_bytes H a, b) else (a, hash_bytes H b)))
  pure (joinPairs pairs)

/-- promoteSteps is the verification loop of the short-public-key notebook
acting on the copied signature: at bit position i it hashes the entry at
index 2i when the bit is 0 and at index 2i + 1 when the bit is 1.  Reading
the entry before writing it mirrors the Python index assignment, which
raises IndexError when the index is out of range. -/
def promoteSteps (H : Bytes → Bytes) (bits : List Bool) :
    List Nat → List Bytes → Option (List Bytes)
  | [], cur => some cur
  | i :: is, cur => do
    let k := if bits.getD i false then 2 * i + 1 else 2 * i
    let v ← cur[k]?
    promoteSteps H bits is (cur.set k (hash_bytes H v))

/-- verify_signature of the short-public-key notebook, returning the result
together with the caller's view of the signature list after the call.  The
source copies the signature (modified_signature = signature.copy()) and all
index assignments of the loop target that copy, so the value the caller
holds afterwards is the unchanged input list. -/
def verify_signature_short_public_run (H : Bytes → Bytes) (m : Bytes)
    (pk : Bytes) (sig : List Bytes) : Option Bool × List Bytes :=
  let result : Option Bool := do
    let modified ← promoteSteps H (convert_bytes_to_bits (hash_message H m))
      (List.range (convert_bytes_to_bits (hash_message H m)).length) sig
    let root ← merkle_root H modified
    pure (pk == root)
  (result, sig)

/-- verify_signature of the short-public-key notebook (result only). -/
def verify_signature_short_public (H : Bytes → Bytes) (m : Bytes)
    (pk : Bytes) (sig : List Bytes) : Option Bool :=
  (verify_signature_short_public_run H m pk sig).1

/-- hashC is a concrete stand-in hash primitive with 32-byte output, used
by the witness and counterexample theorems. -/
def hashC : Bytes → Bytes := fun _ => List.replicate 32 0

/-- ksC is a concrete stand-in AES-CTR keystream, used by the witnesses. -/
def ksC : Bytes → Bytes → Nat → Bytes := fun _ _ i => List.replicate 32 (i % 256)

/-- key_bit names the inline bit computation of choose_key_elements at flat
bit index bi: byte bi / 8, mask 128 >>> (bi mod 8). -/
def key_bit (mh : Bytes) (bi : Nat) : Nat :=
  if mh.getD (bi / 8) 0 &&& (128 >>> (bi % 8)) != 0 then 1 else 0

/-- promotePair describes one iteration of the short-public-key verification
loop at pair granularity: hash the entry the digest bit marks as raw. -/
def promotePair (H : Bytes → Bytes) (b : Bool) (p : Bytes × Bytes) :
    Bytes × Bytes :=
  if b then (p.1, hash_bytes H p.2) else (hash_bytes H p.1, p.2)

/-- promotePairsFrom applies promotePair to successive pairs, reading the
digest bit at the running absolute position. -/
def promotePairsFrom (H : Bytes → Bytes) (bits : List Bool) :
    Nat → List (Bytes × Bytes) → List (Bytes × Bytes)
  | _, [] => []
  | o, p :: ps =>
    promotePair H (bits.getD o false) p :: promotePairsFrom H bits (o + 1) ps

/-- optTraverse succeeds with the mapped list when every step succeeds. -/
theorem optTraverse_eq_map {l : List α} {f : α → Option β} {g : α → β}
    (h : ∀ a ∈ l, f a = some (g a)) : optTraverse l f = some (l.map g) := by
  induction l with
  | nil => rfl
  | cons a as ih =>
    have ha := h a (by simp)
    have htail := ih (fun x hx => h x (by simp [hx]))
    simp [optTraverse, ha, htail]

/-- optTraverse fails as soon as one element of the list fails. -/
theorem optTraverse_eq_none {l : List α} {f : α → Option β} {a : α}
    (ha : a ∈ l) (hfa : f a = none) : optTraverse l f = none := by
  induction l with
  | nil => simp at ha
  | cons b bs ih =>
    rcases List.mem_cons.mp ha with h | h
    · subst h; simp [optTraverse, hfa]
    · cases hb : f b with
      | none => simp [optTraverse, hb]
      | some v => simp [optTraverse, hb, ih h]

/-- Valid indexing returns the getD value. -/
theorem getElem_opt_eq_some_getD {l : List α} {i : Nat} (d : α)
    (h : i < l.length) : l[i]? = some (l.getD i d) := by
  rw [List.getD_eq_getElem?_getD, List.getElem?_eq_getElem h]
  rfl

/-- getD through a map, at a valid index. -/
theorem getD_map_of_lt (f : α → β) {l : List α} {i : Nat}
    (h : i < l.length) (d : α) (d2 : β) :
    (l.map f).getD i d2 = f (l.getD i d) := by
  rw [List.getD_eq_getElem?_getD, List.getD_eq_getElem?_getD,
    List.getElem?_map, List.getElem?_eq_getElem h]
  rfl

/-- getD at a valid index is a member of the list. -/
theorem getD_mem_of_lt {l : List α} {i : Nat} (h : i < l.length) (d : α) :
    l.getD i d ∈ l := by
  rw [List.getD_eq_getElem?_getD, List.getElem?_eq_getElem h]
  exact List.getElem_mem h

/-- getD on List.range at a valid index is the index itself. -/
theorem getD_range_of_lt {i n : Nat} (h : i < n) (d : Nat) :
    (List.range n).getD i d = i := by
  rw [List.getD_eq_getElem?_getD, List.getElem?_range h]
  rfl

/-- Flattening n blocks of k mapped values is a map over range (n * k). -/
theorem range_mul_flatten (k : Nat) (g : Nat → β) : ∀ n : Nat,
    ((List.range n).map (fun i =>
      (List.range k).map (fun j => g (i * k + j)))).flatten
      = (List.range (n * k)).map g := by
  intro n
  induction n with
  | zero => simp
  | succ n ih =>
    rw [List.range_succ, List.map_append, List.flatten_append,
      Nat.succ_mul, List.range_add, List.map_append, ih]
    simp [List.map_map, Function.comp]

/-- Indexing an append past the left part reads the right part. -/
theorem getElem_opt_append_add (l1 l2 : List α) (t : Nat) :
    (l1 ++ l2)[l1.length + t]? = l2[t]? := by
  rw [List.getElem?_append_right (Nat.le_add_right _ _)]
  simp

/-- Setting an append past the left part writes the right part. -/
theorem set_append_add (l1 l2 : List α) (t : Nat) (v : α) :
    (l1 ++ l2).set (l1.length + t) v = l1 ++ l2.set t v := by
  rw [List.set_append]
  simp

/-- convert_bytes_to_bits as a single map over all flat bit indices. -/
theorem convert_bytes_to_bits_eq_map (b : Bytes) :
    convert_bytes_to_bits b = (List.range (b.length * 8)).map
      (fun bi => b.getD (bi / 8) 0 &&& (128 >>> (bi % 8)) != 0) := by
  unfold convert_bytes_to_bits
  rw [← range_mul_flatten 8 (fun bi => b.getD (bi / 8) 0 &&& (128 >>> (bi % 8)) != 0)]
  congr 1
  apply List.map_congr_left
  intro i _
  apply List.map_congr_left
  intro j hj
  have hj8 : j < 8 := List.mem_range.mp hj
  have hdiv : (i * 8 + j) / 8 = i := by omega
  have hmod : (i * 8 + j) % 8 = j := by omega
  rw [hdiv, hmod]

/-- convert_bytes_to_bits yields eight bits per byte. -/
theorem convert_bytes_to_bits_length (b : Bytes) :
    (convert_bytes_to_bits b).length = b.length * 8 := by
  rw [convert_bytes_to_bits_eq_map]; simp

/-- The bit at flat index bi, read with getD, is the masked byte test. -/
theorem convert_bytes_to_bits_getD (b : Bytes) {bi : Nat}
    (h : bi < b.length * 8) :
    (convert_bytes_to_bits b).getD bi false
      = (b.getD (bi / 8) 0 &&& (128 >>> (bi % 8)) != 0) := by
  rw [convert_bytes_to_bits_eq_map, List.getD_eq_getElem?_getD,
    List.getElem?_map, List.getElem?_range h]
  rfl

/-- key_bit is the numeric form of the convert_bytes_to_bits bit. -/
theorem key_bit_eq_bits (b : Bytes) {bi : Nat} (h : bi < b.length * 8) :
    key_bit b bi = if (convert_bytes_to_bits b).getD bi false then 1 else 0 := by
  rw [convert_bytes_to_bits_getD b h]; rfl

/-- Masking with a power of two tests the corresponding bit. -/
theorem land_two_pow_bne (x k : Nat) :
    (x &&& 2 ^ k != 0) = x.testBit k := by
  cases h : x.testBit k with
  | true =>
    have hne : x &&& 2 ^ k ≠ 0 := by
      intro h0
      have ht : (x &&& 2 ^ k).testBit k = false := by
        rw [h0]; exact Nat.zero_testBit k
      rw [Nat.testBit_land, h, Nat.testBit_two_pow] at ht
      simp at ht
    simp [hne]
  | false =>
    have hz : x &&& 2 ^ k = 0 := by
      apply Nat.eq_of_testBit_eq
      intro i
      rw [Nat.testBit_land, Nat.testBit_two_pow, Nat.zero_testBit]
      by_cases hik : k = i
      · subst hik; simp [h]
      · simp [hik]
    simp [hz]

/-- The loop mask 128 >>> j tests bit 7 - j: most significant bit first. -/
theorem mask_testBit (x : Nat) {j : Nat} (hj : j < 8) :
    (x &&& (128 >>> j) != 0) = x.testBit (7 - j) := by
  have hmask : (128 : Nat) >>> j = 2 ^ (7 - j) := by
    interval_cases j <;> decide
  rw [hmask]
  exact land_two_pow_bne x (7 - j)

/-- joinPairs doubles the length. -/
theorem joinPairs_length : ∀ ps : List (α × α),
    (joinPairs ps).length = 2 * ps.length := by
  intro ps
  induction ps with
  | nil => rfl
  | cons p ps ih => simp [joinPairs, ih]; omega

/-- Even positions of joinPairs read the first components. -/
theorem joinPairs_getD_even : ∀ (ps : List (α × α)) (i : Nat), i < ps.length →
    ∀ (d : α) (dp : α × α),
    (joinPairs ps).getD (2 * i) d = (ps.getD i dp).1 := by
  intro ps
  induction ps with
  | nil => intro i h; simp at h
  | cons p ps ih =>
    intro i h d dp
    cases i with
    | zero => rfl
    | succ i =>
      have h2 : 2 * (i + 1) = 2 * i + 2 := by omega
      rw [h2]
      show (joinPairs ps).getD (2 * i) d = (ps.getD i dp).1
      exact ih i (by simpa using h) d dp

/-- Odd positions of joinPairs read the second components. -/
theorem joinPairs_getD_odd : ∀ (ps : List (α × α)) (i : Nat), i < ps.length →
    ∀ (d : α) (dp : α × α),
    (joinPairs ps).getD (2 * i + 1) d = (ps.getD i dp).2 := by
  intro ps
  induction ps with
  | nil => intro i h; simp at h
  | cons p ps ih =>
    intro i h d dp
    cases i with
    | zero => rfl
    | succ i =>
      have h2 : 2 * (i + 1) + 1 = 2 * i + 1 + 2 := by omega
      rw [h2]
      show (joinPairs ps).getD (2 * i + 1) d = (ps.getD i dp).2
      exact ih i (by simpa using h) d dp

/-- choose_key_elements, on a digest of at least 32 bytes and a table of at
least 512 elements, succeeds and selects, for each of the 256 bit positions,
the table entry at index 2 * position + bit. -/
theorem choose_key_elements_spec (mh : Bytes) (key : List α) (d : α)
    (hmh : 32 ≤ mh.length) (hkey : 512 ≤ key.length) :
    choose_key_elements mh key
      = some ((List.range 256).map
          (fun bi => key.getD (2 * bi + key_bit mh bi) d)) := by
  have hX : optTraverse (List.range (max_message_length / 8)) (fun i =>
      optTraverse (List.range 8) (fun j => do
        let mhByte ← mh[i]?
        let keyBit := if mhByte &&& (128 >>> j) != 0 then 1 else 0
        key[2 * (i * 8 + j) + keyBit]?))
      = some ((List.range 32).map (fun i => (List.range 8).map
          (fun j => key.getD (2 * (i * 8 + j) + key_bit mh (i * 8 + j)) d))) := by
    rw [show max_message_length / 8 = 32 from rfl]
    apply optTraverse_eq_map
    intro i hi
    have hi32 : i < 32 := List.mem_range.mp hi
    apply optTraverse_eq_map
    intro j hj
    have hj8 : j < 8 := List.mem_range.mp hj
    show (mh[i]?).bind _ = _
    rw [getElem_opt_eq_some_getD 0 (lt_of_lt_of_le hi32 hmh)]
    show key[2 * (i * 8 + j) +
      (if mh.getD i 0 &&& (128 >>> j) != 0 then 1 else 0)]? = _
    have hkb : (if mh.getD i 0 &&& (128 >>> j) != 0 then 1 else 0)
        = key_bit mh (i * 8 + j) := by
      unfold key_bit
      have hdiv : (i * 8 + j) / 8 = i := by omega
      have hmod : (i * 8 + j) % 8 = j := by omega
      rw [hdiv, hmod]
    rw [hkb]
    have hkb1 : key_bit mh (i * 8 + j) ≤ 1 := by
      unfold key_bit; split <;> omega
    exact getElem_opt_eq_some_getD d (by omega)
  unfold choose_key_elements
  rw [hX]
  show some _ = _
  rw [range_mul_flatten 8 (fun bi => key.getD (2 * bi + key_bit mh bi) d) 32]

/-- merkleRootFuel is independent of the budget once it covers the length. -/
theorem merkleRootFuel_congr (H : Bytes → Bytes) : ∀ (f1 : Nat)
    (ls : List Bytes) (f2 : Nat), ls.length ≤ f1 → ls.length ≤ f2 →
    merkleRootFuel H f1 ls = merkleRootFuel H f2 ls := by
  intro f1
  induction f1 with
  | zero =>
    intro ls f2 h1 _
    have : ls = [] := List.length_eq_zero.mp (Nat.le_zero.mp h1)
    subst this
    cases f2 <;> rfl
  | succ f1 ih =>
    intro ls f2 h1 h2
    match ls, h1, h2 with
    | [], _, _ => cases f2 <;> rfl
    | [x], _, _ => cases f2 <;> rfl
    | a :: b :: rest, h1, h2 =>
      have hlen : (a :: b :: rest).length = rest.length + 2 := by simp
      obtain ⟨f2x, rfl⟩ : ∃ f2x, f2 = f2x + 1 := by
        cases f2 with
        | zero => simp [hlen] at h2
        | succ k => exact ⟨k, rfl⟩
      show (do
        let left ← merkleRootFuel H f1 ((a :: b :: rest).take ((a :: b :: rest).length / 2))
        let right ← merkleRootFuel H f1 ((a :: b :: rest).drop ((a :: b :: rest).length / 2))
        some (H (left ++ right))) = (do
        let left ← merkleRootFuel H f2x ((a :: b :: rest).take ((a :: b :: rest).length / 2))
        let right ← merkleRootFuel H f2x ((a :: b :: rest).drop ((a :: b :: rest).length / 2))
        some (H (left ++ right)))
      have htake : ((a :: b :: rest).take ((a :: b :: rest).length / 2)).length
          = (a :: b :: rest).length / 2 := by
        rw [List.length_take]; simp only [hlen]; omega
      have hdrop : ((a :: b :: rest).drop ((a :: b :: rest).length / 2)).length
          = (a :: b :: rest).length - (a :: b :: rest).length / 2 := by
        rw [List.length_drop]
      rw [ih ((a :: b :: rest).take ((a :: b :: rest).length / 2)) f2x
            (by rw [htake]; simp only [hlen] at h1 ⊢; omega)
            (by rw [htake]; simp only [hlen] at h2 ⊢; omega),
          ih ((a :: b :: rest).drop ((a :: b :: rest).length / 2)) f2x
            (by rw [hdrop]; simp only [hlen] at h1 ⊢; omega)
            (by rw [hdrop]; simp only [hlen] at h2 ⊢; omega)]

/-- A single leaf is its own Merkle root, unhashed. -/
theorem merkle_root_single (H : Bytes → Bytes) (x : Bytes) :
    merkle_root H [x] = some x := rfl

/-- For two or more leaves the Merkle root hashes the concatenation of the
roots of the two halves, split at the floored midpoint. -/
theorem merkle_root_rec (H : Bytes → Bytes) (ls : List Bytes)
    (h : 2 ≤ ls.length) :
    merkle_root H ls
      = (merkle_root H (ls.take (ls.length / 2))).bind (fun left =>
          (merkle_root H (ls.drop (ls.length / 2))).bind (fun right =>
            some (H (left ++ right)))) := by
  match ls, h with
  | a :: b :: rest, _ =>
    have hlen : (a :: b :: rest).length = rest.length + 2 := by simp
    show merkleRootFuel H (rest.length + 2) (a :: b :: rest) = _
    show (do
      let left ← merkleRootFuel H (rest.length + 1)
        ((a :: b :: rest).take ((a :: b :: rest).length / 2))
      let right ← merkleRootFuel H (rest.length + 1)
        ((a :: b :: rest).drop ((a :: b :: rest).length / 2))
      some (H (left ++ right))) = _
    unfold merkle_root
    have htake : ((a :: b :: rest).take ((a :: b :: rest).length / 2)).length
        = (a :: b :: rest).length / 2 := by
      rw [List.length_take]; simp only [hlen]; omega
    have hdrop : ((a :: b :: rest).drop ((a :: b :: rest).length / 2)).length
        = (a :: b :: rest).length - (a :: b :: rest).length / 2 := by
      rw [List.length_drop]
    rw [merkleRootFuel_congr H (rest.length + 1)
          ((a :: b :: rest).take ((a :: b :: rest).length / 2)) _
          (by rw [htake]; simp only [hlen]; omega) (by rw [htake]),
        merkleRootFuel_congr H (rest.length + 1)
          ((a :: b :: rest).drop ((a :: b :: rest).length / 2)) _
          (by rw [hdrop]; simp only [hlen]; omega) (by rw [hdrop])]
    rw [htake, hdrop]
    rfl

/-- merkleRootFuel succeeds on every non-empty list within budget. -/
theorem merkleRootFuel_isSome (H : Bytes → Bytes) : ∀ (f : Nat)
    (ls : List Bytes), ls ≠ [] → ls.length ≤ f →
    (merkleRootFuel H f ls).isSome := by
  intro f
  induction f with
  | zero =>
    intro ls hne h
    exact absurd (List.length_eq_zero.mp (Nat.le_zero.mp h)) hne
  | succ f ih =>
    intro ls hne h
    match ls with
    | [] => exact absurd rfl hne
    | [x] => rfl
    | a :: b :: rest =>
      have hlen : (a :: b :: rest).length = rest.length + 2 := by simp
      show ((do
        let left ← merkleRootFuel H f
          ((a :: b :: rest).take ((a :: b :: rest).length / 2))
        let right ← merkleRootFuel H f
          ((a :: b :: rest).drop ((a :: b :: rest).length / 2))
        some (H (left ++ right))) : Option Bytes).isSome
      have hlft := ih ((a :: b :: rest).take ((a :: b :: rest).length / 2))
        (by
          apply List.ne_nil_of_length_pos
          rw [List.length_take]; simp only [hlen]; omega)
        (by rw [List.length_take]; simp only [hlen] at h ⊢; omega)
      have hrgt := ih ((a :: b :: rest).drop ((a :: b :: rest).length / 2))
        (by
          apply List.ne_nil_of_length_pos
          rw [List.length_drop]; simp only [hlen]; omega)
        (by rw [List.length_drop]; simp only [hlen] at h ⊢; omega)
      obtain ⟨left, hl⟩ := Option.isSome_iff_exists.mp hlft
      obtain ⟨right, hr⟩ := Option.isSome_iff_exists.mp hrgt
      rw [hl, hr]
      rfl

/-- merkle_root succeeds exactly on non-empty leaf lists: the power-of-two
precondition of the docstring is not checked anywhere. -/
theorem merkle_root_isSome_iff (H : Bytes → Bytes) (ls : List Bytes) :
    (merkle_root H ls).isSome ↔ ls ≠ [] := by
  constructor
  · intro h hnil
    subst hnil
    simp [merkle_root, merkleRootFuel] at h
  · intro hne
    exact merkleRootFuel_isSome H ls.length ls hne (Nat.le_refl _)

/-- The promotion loop succeeds when every touched index is in range. -/
theorem promoteSteps_isSome (H : Bytes → Bytes) (bits : List Bool) :
    ∀ (is : List Nat) (cur : List Bytes),
    (∀ i ∈ is, 2 * i + 1 < cur.length) →
    (promoteSteps H bits is cur).isSome := by
  intro is
  induction is with
  | nil => intro cur _; rfl
  | cons i is ih =>
    intro cur h
    have hi : 2 * i + 1 < cur.length := h i (by simp)
    show ((cur[if bits.getD i false then 2 * i + 1 else 2 * i]?).bind _).isSome
    have hk : (if bits.getD i false then 2 * i + 1 else 2 * i) < cur.length := by
      split <;> omega
    rw [getElem_opt_eq_some_getD [] hk]
    show (promoteSteps H bits is _).isSome
    apply ih
    intro x hx
    rw [List.length_set]
    exact h x (by simp [hx])

/-- The promotion loop fails when some step's base index is out of range. -/
theorem promoteSteps_eq_none (H : Bytes → Bytes) (bits : List Bool) :
    ∀ (is : List Nat) (cur : List Bytes) (i : Nat), i ∈ is →
    cur.length ≤ 2 * i → promoteSteps H bits is cur = none := by
  intro is
  induction is with
  | nil => intro cur i h; simp at h
  | cons j is ih =>
    intro cur i hmem hlen
    show (cur[if bits.getD j false then 2 * j + 1 else 2 * j]?).bind _ = none
    rcases List.mem_cons.mp hmem with h | h
    · subst h
      have hnone : cur[if bits.getD i false then 2 * i + 1 else 2 * i]? = none := by
        apply List.getElem?_eq_none
        split <;> omega
      rw [hnone]
      rfl
    · cases hk : cur[if bits.getD j false then 2 * j + 1 else 2 * j]? with
      | none => rfl
      | some v =>
        show promoteSteps H bits is _ = none
        apply ih _ i h
        rw [List.length_set]
        exact hlen

/-- One promotion pass over appended pairs, by induction on the pairs: the
prefix already handled is untouched and each pair is promoted at its bit. -/
theorem promoteSteps_pairs (H : Bytes → Bytes) (bits : List Bool) :
    ∀ (pairs : List (Bytes × Bytes)) (o : Nat) (pre : List Bytes),
    pre.length = 2 * o →
    promoteSteps H bits (List.range' o pairs.length) (pre ++ joinPairs pairs)
      = some (pre ++ joinPairs (promotePairsFrom H bits o pairs)) := by
  intro pairs
  induction pairs with
  | nil => intro o pre _; simp [joinPairs, promotePairsFrom, promoteSteps]
  | cons p ps ih =>
    intro o pre hpre
    rw [show (p :: ps).length = ps.length + 1 from rfl, List.range'_succ]
    show ((pre ++ joinPairs (p :: ps))[if bits.getD o false
        then 2 * o + 1 else 2 * o]?).bind _ = _
    cases hbit : bits.getD o false with
    | false =>
      have hget : (pre ++ joinPairs (p :: ps))[2 * o]? = some p.1 := by
        rw [show 2 * o = pre.length + 0 by omega, getElem_opt_append_add]
        simp [joinPairs]
      show ((pre ++ joinPairs (p :: ps))[2 * o]?).bind _ = _
      rw [hget]
      show promoteSteps H bits (List.range' (o + 1) ps.length)
        ((pre ++ joinPairs (p :: ps)).set (2 * o) (hash_bytes H p.1)) = _
      have hset : (pre ++ joinPairs (p :: ps)).set (2 * o) (hash_bytes H p.1)
          = (pre ++ [hash_bytes H p.1, p.2]) ++ joinPairs ps := by
        rw [show 2 * o = pre.length + 0 by omega, set_append_add]
        simp [joinPairs]
      rw [hset, ih (o + 1) (pre ++ [hash_bytes H p.1, p.2])
        (by simp [hpre]; omega)]
      rw [show promotePairsFrom H bits o (p :: ps)
          = promotePair H (bits.getD o false) p
            :: promotePairsFrom H bits (o + 1) ps from rfl, hbit]
      simp [promotePair, joinPairs]
    | true =>
      have hget : (pre ++ joinPairs (p :: ps))[2 * o + 1]? = some p.2 := by
        rw [show 2 * o + 1 = pre.length + 1 by omega, getElem_opt_append_add]
        simp [joinPairs]
      show ((pre ++ joinPairs (p :: ps))[2 * o + 1]?).bind _ = _
      rw [hget]
      show promoteSteps H bits (List.range' (o + 1) ps.length)
        ((pre ++ joinPairs (p :: ps)).set (2 * o + 1) (hash_bytes H p.2)) = _
      have hset : (pre ++ joinPairs (p :: ps)).set (2 * o + 1) (hash_bytes H p.2)
          = (pre ++ [p.1, hash_bytes H p.2]) ++ joinPairs ps := by
        rw [show 2 * o + 1 = pre.length + 1 by omega, set_append_add]
        simp [joinPairs]
      rw [hset, ih (o + 1) (pre ++ [p.1, hash_bytes H p.2])
        (by simp [hpre]; omega)]
      rw [show promotePairsFrom H bits o (p :: ps)
          = promotePair H (bits.getD o false) p
            :: promotePairsFrom H bits (o + 1) ps from rfl, hbit]
      simp [promotePair, joinPairs]

/-- promotePairsFrom over a mapped range, in closed form. -/
theorem promotePairsFrom_map_range (H : Bytes → Bytes) (bits : List Bool) :
    ∀ (n o : Nat) (g : Nat → Bytes × Bytes),
    promotePairsFrom H bits o ((List.range n).map g)
      = (List.range n).map
          (fun k => promotePair H (bits.getD (o + k) false) (g k)) := by
  intro n
  induction n with
  | zero => intro o g; rfl
  | succ n ih =>
    intro o g
    rw [List.range_succ_eq_map, List.map_cons, List.map_cons]
    show promotePair H (bits.getD o false) (g 0) :: promotePairsFrom H bits (o + 1) _ = _
    rw [List.map_map, ih (o + 1) (g ∘ Nat.succ), List.map_map]
    congr 1
    apply List.map_congr_left
    intro k _
    show promotePair H (bits.getD (o + 1 + k) false) (g (k + 1))
      = promotePair H (bits.getD (o + (k + 1)) false) (g (k + 1))
    rw [show o + 1 + k = o + (k + 1) by omega]

/-- encRun produces exactly n ciphertext blocks. -/
theorem encRun_fst_length (ks : Bytes → Bytes → Nat → Bytes) :
    ∀ (n : Nat) (s : AesCtrEncryptor) (pt : Bytes),
    (encRun ks n s pt).1.length = n := by
  intro n
  induction n with
  | zero => intro s pt; rfl
  | succ n ih => intro s pt; simp [encRun, ih]

/-- Rebuilding a list of even length from its index pairs, mapped. -/
theorem joinPairs_of_map_range (f : Bytes → Bytes) (d : Bytes) :
    ∀ (n : Nat) (sk : List Bytes), sk.length = 2 * n →
    joinPairs ((List.range n).map
      (fun i => (f (sk.getD (2 * i) d), f (sk.getD (2 * i + 1) d))))
      = sk.map f := by
  intro n
  induction n with
  | zero =>
    intro sk h
    have : sk = [] := List.length_eq_zero.mp (by omega)
    subst this
    rfl
  | succ n ih =>
    intro sk h
    match sk, h with
    | a :: b :: rest, h =>
      have hrest : rest.length = 2 * n := by simp at h; omega
      rw [List.range_succ_eq_map, List.map_cons]
      show joinPairs ((f a, f b) :: _) = _
      rw [List.map_map]
      show (f a) :: (f b) :: joinPairs _ = _
      have hmap : ((List.range n).map
          ((fun i => (f ((a :: b :: rest).getD (2 * i) d),
            f ((a :: b :: rest).getD (2 * i + 1) d))) ∘ Nat.succ))
          = (List.range n).map
            (fun i => (f (rest.getD (2 * i) d), f (rest.getD (2 * i + 1) d))) := by
        apply List.map_congr_left
        intro k _
        show (f ((a :: b :: rest).getD (2 * (k + 1)) d),
          f ((a :: b :: rest).getD (2 * (k + 1) + 1) d)) = _
        rw [show 2 * (k + 1) = 2 * k + 1 + 1 by omega]
        rfl
      rw [hmap, ih rest hrest]
      rfl

/-- The inline key bit is at most 1. -/
theorem key_bit_le_one (mh : Bytes) (bi : Nat) : key_bit mh bi ≤ 1 := by
  unfold key_bit; split <;> omega

/-- generate_public_key (naive) hashes elementwise when all elements fit
32 bytes. -/
theorem generate_public_key_naive_spec (H : Bytes → Bytes) (sk : List Nat)
    (hval : ∀ e ∈ sk, e < 2 ^ security_parameter) :
    generate_public_key_naive H sk
      = some (sk.map (fun e => H (toBytesBE (security_parameter / 8) e))) := by
  apply optTraverse_eq_map
  intro e he
  unfold hash_key_element
  rw [if_pos (hval e he)]

/-- Round trip of the naive mode: sign then verify yields true, for any
private key with the generator's shape (512 elements, each below 2^256). -/
theorem roundtrip_naive (H : Bytes → Bytes) (m : Bytes) (sk : List Nat)
    (hd : (hash_message H m).length = 32)
    (hsk : sk.length = 2 * max_message_length)
    (hval : ∀ e ∈ sk, e < 2 ^ security_parameter) :
    (generate_public_key_naive H sk).bind (fun pk =>
      (sign_message_naive H m sk).bind (fun sig =>
        verify_signature_naive H m pk sig)) = some true := by
  have hsk512 : 512 ≤ sk.length := by rw [hsk]; rfl
  have hmh : 32 ≤ (hash_message H m).length := by rw [hd]
  rw [generate_public_key_naive_spec H sk hval, Option.some_bind]
  unfold sign_message_naive
  rw [choose_key_elements_spec (hash_message H m) sk 0 hmh hsk512,
    Option.some_bind]
  unfold verify_signature_naive
  have hidx : ∀ bi : Nat, bi < 256 →
      2 * bi + key_bit (hash_message H m) bi < sk.length := by
    intro bi hbi
    have := key_bit_le_one (hash_message H m) bi
    omega
  rw [choose_key_elements_spec (hash_message H m)
    (sk.map (fun e => H (toBytesBE (security_parameter / 8) e))) []
    hmh (by rw [List.length_map]; exact hsk512)]
  have hderived : optTraverse
      ((List.range 256).map (fun bi =>
        sk.getD (2 * bi + key_bit (hash_message H m) bi) 0))
      (hash_key_element H)
      = some (((List.range 256).map (fun bi =>
          sk.getD (2 * bi + key_bit (hash_message H m) bi) 0)).map
            (fun e => H (toBytesBE (security_parameter / 8) e))) := by
    apply optTraverse_eq_map
    intro e he
    obtain ⟨bi, hbi, rfl⟩ := List.mem_map.mp he
    have hbi256 : bi < 256 := List.mem_range.mp hbi
    unfold hash_key_element
    rw [if_pos (hval _ (getD_mem_of_lt (hidx bi hbi256) 0))]
  rw [hderived]
  simp only [Option.bind_eq_bind, Option.some_bind]
  have hlists : (List.range 256).map (fun bi =>
      (sk.map (fun e => H (toBytesBE (security_parameter / 8) e))).getD
        (2 * bi + key_bit (hash_message H m) bi) [])
      = ((List.range 256).map (fun bi =>
          sk.getD (2 * bi + key_bit (hash_message H m) bi) 0)).map
            (fun e => H (toBytesBE (security_parameter / 8) e)) := by
    rw [List.map_map]
    apply List.map_congr_left
    intro bi hbi
    have hbi256 : bi < 256 := List.mem_range.mp hbi
    exact getD_map_of_lt _ (hidx bi hbi256) 0 []
  rw [hlists, beq_self_eq_true]
  rfl

/-- Round trip of the short-private-key mode: for a well-formed seed, the
expanded key signs and the hashed expansion verifies. -/
theorem roundtrip_short_private (ks : Bytes → Bytes → Nat → Bytes)
    (H : Bytes → Bytes) (m : Bytes) (kB nB : Bytes)
    (hd : (hash_message H m).length = 32)
    (hk : kB.length = 32) (hn : nB.length = 16) :
    (generate_public_key_short_private ks H ⟨kB, nB⟩).bind (fun pk =>
      (sign_message_short_private ks H m ⟨kB, nB⟩).bind (fun sig =>
        verify_signature_short_private H m pk sig)) = some true := by
  have hmh : 32 ≤ (hash_message H m).length := by rw [hd]
  have hexp : expand_private_key ks ⟨kB, nB⟩
      = some (encRun ks (2 * max_message_length) ⟨kB, nB, 0⟩ zero_bytes).1 := by
    unfold expand_private_key
    exact if_pos ⟨hk, hn⟩
  have heplen : (encRun ks (2 * max_message_length) ⟨kB, nB, 0⟩ zero_bytes).1.length
      = 2 * max_message_length := encRun_fst_length ks _ _ _
  have hep512 : 512 ≤ (encRun ks (2 * max_message_length) ⟨kB, nB, 0⟩ zero_bytes).1.length := by
    rw [heplen]; rfl
  have hidx : ∀ bi : Nat, bi < 256 →
      2 * bi + key_bit (hash_message H m) bi
        < (encRun ks (2 * max_message_length) ⟨kB, nB, 0⟩ zero_bytes).1.length := by
    intro bi hbi
    have := key_bit_le_one (hash_message H m) bi
    omega
  have hgen : generate_public_key_short_private ks H ⟨kB, nB⟩
      = some ((encRun ks (2 * max_message_length) ⟨kB, nB, 0⟩ zero_bytes).1.map
          (hash_bytes H)) := by
    unfold generate_public_key_short_private
    rw [hexp]
    rfl
  have hsig : sign_message_short_private ks H m ⟨kB, nB⟩
      = some ((List.range 256).map (fun bi =>
          (encRun ks (2 * max_message_length) ⟨kB, nB, 0⟩ zero_bytes).1.getD
            (2 * bi + key_bit (hash_message H m) bi) [])) := by
    unfold sign_message_short_private
    rw [hexp]
    simp only [Option.bind_eq_bind, Option.some_bind]
    exact choose_key_elements_spec _ _ [] hmh hep512
  rw [hgen, Option.some_bind, hsig, Option.some_bind]
  unfold verify_signature_short_private
  rw [choose_key_elements_spec (hash_message H m)
    ((encRun ks (2 * max_message_length) ⟨kB, nB, 0⟩ zero_bytes).1.map
      (hash_bytes H)) [] hmh (by rw [List.length_map]; exact hep512)]
  simp only [Option.bind_eq_bind, Option.some_bind]
  have hlists : (List.range 256).map (fun bi =>
      ((encRun ks (2 * max_message_length) ⟨kB, nB, 0⟩ zero_bytes).1.map
        (hash_bytes H)).getD (2 * bi + key_bit (hash_message H m) bi) [])
      = ((List.range 256).map (fun bi =>
          (encRun ks (2 * max_message_length) ⟨kB, nB, 0⟩ zero_bytes).1.getD
            (2 * bi + key_bit (hash_message H m) bi) [])).map (hash_bytes H) := by
    rw [List.map_map]
    apply List.map_congr_left
    intro bi hbi
    exact getD_map_of_lt _ (hidx bi (List.mem_range.mp hbi)) [] []
  rw [hlists, beq_self_eq_true]
  rfl

/-- sign_message (short public key) in closed form: one pair per bit
position, raw chosen element and hashed unchosen element. -/
theorem sign_short_public_spec (H : Bytes → Bytes) (m : Bytes)
    (sk : List Bytes) (hd : (hash_message H m).length = 32)
    (hsk512 : 512 ≤ sk.length) :
    sign_message_short_public H m sk
      = some (joinPairs ((List.range 256).map (fun i =>
          if (convert_bytes_to_bits (hash_message H m)).getD i false
          then (hash_bytes H (sk.getD (2 * i) []), sk.getD (2 * i + 1) [])
          else (sk.getD (2 * i) [], hash_bytes H (sk.getD (2 * i + 1) []))))) := by
  have hbl : (convert_bytes_to_bits (hash_message H m)).length = 256 := by
    rw [convert_bytes_to_bits_length, hd]
  unfold sign_message_short_public
  rw [hbl]
  have htrav : optTraverse (List.range 256) (fun i => do
      let a ← sk[2 * i]?
      let b ← sk[2 * i + 1]?
      pure (if (convert_bytes_to_bits (hash_message H m)).getD i false
        then (hash_bytes H a, b) else (a, hash_bytes H b)))
      = some ((List.range 256).map (fun i =>
          if (convert_bytes_to_bits (hash_message H m)).getD i false
          then (hash_bytes H (sk.getD (2 * i) []), sk.getD (2 * i + 1) [])
          else (sk.getD (2 * i) [], hash_bytes H (sk.getD (2 * i + 1) [])))) := by
    apply optTraverse_eq_map
    intro i hi
    have hi256 : i < 256 := List.mem_range.mp hi
    rw [getElem_opt_eq_some_getD [] (show 2 * i < sk.length by omega),
      getElem_opt_eq_some_getD [] (show 2 * i + 1 < sk.length by omega)]
    rfl
  rw [htrav]
  rfl

/-- verify_signature (short public key) unfolded to its bind chain. -/
theorem verify_short_public_unfold (H : Bytes → Bytes) (m : Bytes)
    (pk : Bytes) (sig : List Bytes) :
    verify_signature_short_public H m pk sig
      = (promoteSteps H (convert_bytes_to_bits (hash_message H m))
          (List.range (convert_bytes_to_bits (hash_message H m)).length)
          sig).bind
        (fun modified => (merkle_root H modified).bind
          (fun root => some (pk == root))) := rfl

/-- Round trip of the short-public-key mode: promotion of an honest
signature reconstructs the hashed key sequence, whose root is the key. -/
theorem roundtrip_short_public (H : Bytes → Bytes) (m : Bytes)
    (sk : List Bytes) (hd : (hash_message H m).length = 32)
    (hsk : sk.length = 2 * max_message_length) :
    (generate_public_key_short_public H sk).bind (fun pk =>
      (sign_message_short_public H m sk).bind (fun sig =>
        verify_signature_short_public H m pk sig)) = some true := by
  have hsk512 : 512 ≤ sk.length := by rw [hsk]; rfl
  have hbl : (convert_bytes_to_bits (hash_message H m)).length = 256 := by
    rw [convert_bytes_to_bits_length, hd]
  have hpkSome : (merkle_root H (sk.map (hash_bytes H))).isSome := by
    rw [merkle_root_isSome_iff]
    apply List.ne_nil_of_length_pos
    rw [List.length_map]
    omega
  obtain ⟨r, hr⟩ := Option.isSome_iff_exists.mp hpkSome
  rw [show generate_public_key_short_public H sk
      = merkle_root H (sk.map (hash_bytes H)) from rfl, hr, Option.some_bind,
    sign_short_public_spec H m sk hd hsk512, Option.some_bind,
    verify_short_public_unfold, hbl]
  have hplen : ((List.range 256).map (fun i =>
      if (convert_bytes_to_bits (hash_message H m)).getD i false
      then (hash_bytes H (sk.getD (2 * i) []), sk.getD (2 * i + 1) [])
      else (sk.getD (2 * i) [], hash_bytes H (sk.getD (2 * i + 1) [])))).length
      = 256 := by simp
  have hpromote := promoteSteps_pairs H
    (convert_bytes_to_bits (hash_message H m))
    ((List.range 256).map (fun i =>
      if (convert_bytes_to_bits (hash_message H m)).getD i false
      then (hash_bytes H (sk.getD (2 * i) []), sk.getD (2 * i + 1) [])
      else (sk.getD (2 * i) [], hash_bytes H (sk.getD (2 * i + 1) []))))
    0 [] rfl
  rw [List.nil_append, hplen, ← List.range_eq_range'] at hpromote
  rw [hpromote]
  rw [promotePairsFrom_map_range]
  have hpairs : (List.range 256).map (fun k =>
      promotePair H ((convert_bytes_to_bits (hash_message H m)).getD (0 + k) false)
        (if (convert_bytes_to_bits (hash_message H m)).getD k false
         then (hash_bytes H (sk.getD (2 * k) []), sk.getD (2 * k + 1) [])
         else (sk.getD (2 * k) [], hash_bytes H (sk.getD (2 * k + 1) []))))
      = (List.range 256).map (fun k =>
          (hash_bytes H (sk.getD (2 * k) []),
           hash_bytes H (sk.getD (2 * k + 1) []))) := by
    apply List.map_congr_left
    intro k _
    rw [Nat.zero_add]
    cases hb : (convert_bytes_to_bits (hash_message H m)).getD k false <;>
      simp [promotePair]
  rw [hpairs, joinPairs_of_map_range (hash_bytes H) [] 256 sk
    (by rw [hsk]; rfl)]
  rw [List.nil_append, Option.some_bind, hr, Option.some_bind,
    beq_self_eq_true]

/-- Claim C1: for every message m and every keypair (pk, sk) produced by
generate_keypair in each of the three modes (naive, short-private-key,
short-public-key), verify(m, pk, sign(m, sk)) returns true.  The random
generators are captured by their output shapes: 512 elements below 2^256
(naive and short-public private keys) and a 32-byte key with 16-byte nonce
(short-private seed). -/
theorem claim_C1_round_trip
    (H : Bytes → Bytes) (ks : Bytes → Bytes → Nat → Bytes) (m : Bytes)
    (skA : List Nat) (kB nB : Bytes) (skC : List Bytes)
    (hd : (hash_message H m).length = 32)
    (hskA : skA.length = 2 * max_message_length)
    (hvalA : ∀ e ∈ skA, e < 2 ^ security_parameter)
    (hkB : kB.length = 32) (hnB : nB.length = 16)
    (hskC : skC.length = 2 * max_message_length) :
    (generate_public_key_naive H skA).bind (fun pk =>
      (sign_message_naive H m skA).bind (fun sig =>
        verify_signature_naive H m pk sig)) = some true
    ∧ (generate_public_key_short_private ks H ⟨kB, nB⟩).bind (fun pk =>
        (sign_message_short_private ks H m ⟨kB, nB⟩).bind (fun sig =>
          verify_signature_short_private H m pk sig)) = some true
    ∧ (generate_public_key_short_public H skC).bind (fun pk =>
        (sign_message_short_public H m skC).bind (fun sig =>
          verify_signature_short_public H m pk sig)) = some true :=
  ⟨roundtrip_naive H m skA hd hskA hvalA,
   roundtrip_short_private ks H m kB nB hd hkB hnB,
   roundtrip_short_public H m skC hd hskC⟩

/-- Witness for C1 at a concrete message, hash, keystream and keys. -/
theorem claim_C1_round_trip_witness :
    ((hash_message hashC []).length = 32
      ∧ (List.replicate 512 0).length = 2 * max_message_length
      ∧ (∀ e ∈ List.replicate 512 0, e < 2 ^ security_parameter)
      ∧ (List.replicate 32 0 : Bytes).length = 32
      ∧ (List.replicate 16 0 : Bytes).length = 16
      ∧ (List.replicate 512 ([] : Bytes)).length = 2 * max_message_length)
    ∧ ((generate_public_key_naive hashC (List.replicate 512 0)).bind (fun pk =>
        (sign_message_naive hashC [] (List.replicate 512 0)).bind (fun sig =>
          verify_signature_naive hashC [] pk sig)) = some true
      ∧ (generate_public_key_short_private ksC hashC
            ⟨List.replicate 32 0, List.replicate 16 0⟩).bind (fun pk =>
          (sign_message_short_private ksC hashC []
              ⟨List.replicate 32 0, List.replicate 16 0⟩).bind (fun sig =>
            verify_signature_short_private hashC [] pk sig)) = some true
      ∧ (generate_public_key_short_public hashC
            (List.replicate 512 [])).bind (fun pk =>
          (sign_message_short_public hashC []
              (List.replicate 512 [])).bind (fun sig =>
            verify_signature_short_public hashC [] pk sig)) = some true) := by
  have h1 : (hash_message hashC []).length = 32 := by
    simp [hash_message, hashC]
  have h2 : (List.replicate 512 0).length = 2 * max_message_length := by
    rw [List.length_replicate]
    rfl
  have h3 : ∀ e ∈ List.replicate 512 0, e < 2 ^ security_parameter := by
    intro e he
    rw [List.eq_of_mem_replicate he]
    exact Nat.pos_pow_of_pos _ (by omega)
  have h4 : (List.replicate 32 0 : Bytes).length = 32 := by simp
  have h5 : (List.replicate 16 0 : Bytes).length = 16 := by simp
  have h6 : (List.replicate 512 ([] : Bytes)).length = 2 * max_message_length := by
    rw [List.length_replicate]
    rfl
  exact ⟨⟨h1, h2, h3, h4, h5, h6⟩,
    claim_C1_round_trip hashC ksC [] (List.replicate 512 0)
      (List.replicate 32 0) (List.replicate 16 0) (List.replicate 512 [])
      h1 h2 h3 h4 h5 h6⟩

/-- Claim C2: a 32-byte digest yields 256 bits, most significant bit first
within each byte in byte order, and selection picks index 2 * i + bit from
a paired table of exactly twice as many elements as there are bits. -/
theorem claim_C2_bit_selection (d : Bytes) (key : List α) (da : α)
    (hd : d.length = 32) (hkey : key.length = 2 * max_message_length) :
    (convert_bytes_to_bits d).length = 256
    ∧ (∀ i, i < 256 → (convert_bytes_to_bits d).getD i false
        = (d.getD (i / 8) 0).testBit (7 - i % 8))
    ∧ choose_key_elements d key
        = some ((List.range 256).map (fun i =>
            key.getD (2 * i + (if (convert_bytes_to_bits d).getD i false
              then 1 else 0)) da)) := by
  have hd8 : d.length * 8 = 256 := by rw [hd]
  refine ⟨by rw [convert_bytes_to_bits_length, hd8], ?_, ?_⟩
  · intro i hi
    rw [convert_bytes_to_bits_getD d (by omega)]
    exact mask_testBit _ (Nat.mod_lt i (by omega))
  · rw [choose_key_elements_spec d key da (by omega) (by rw [hkey]; rfl)]
    congr 1
    apply List.map_congr_left
    intro i hi
    rw [key_bit_eq_bits d (by rw [hd8]; exact List.mem_range.mp hi)]

/-- Witness for C2 at a concrete digest and table. -/
theorem claim_C2_bit_selection_witness :
    ((List.replicate 32 5 : Bytes).length = 32
      ∧ (List.replicate 512 0 : List Nat).length = 2 * max_message_length)
    ∧ ((convert_bytes_to_bits (List.replicate 32 5)).length = 256
      ∧ (∀ i, i < 256 → (convert_bytes_to_bits (List.replicate 32 5)).getD i false
          = ((List.replicate 32 5 : Bytes).getD (i / 8) 0).testBit (7 - i % 8))
      ∧ choose_key_elements (List.replicate 32 5) (List.replicate 512 0 : List Nat)
          = some ((List.range 256).map (fun i =>
              (List.replicate 512 0 : List Nat).getD (2 * i +
                (if (convert_bytes_to_bits (List.replicate 32 5)).getD i false
                  then 1 else 0)) 0))) := by
  have h1 : (List.replicate 32 5 : Bytes).length = 32 := by simp
  have h2 : (List.replicate 512 0 : List Nat).length = 2 * max_message_length := by
    rw [List.length_replicate]
    rfl
  exact ⟨⟨h1, h2⟩, claim_C2_bit_selection (List.replicate 32 5)
    (List.replicate 512 0) 0 h1 h2⟩

/-- Claim C3: a single-element list is its own root, unhashed; a list of
two or more leaves has root Hash(root(left) ++ root(right)) with the split
at the floored midpoint. -/
theorem claim_C3_merkle_structure (H : Bytes → Bytes) (x : Bytes)
    (ls : List Bytes) (h2 : 2 ≤ ls.length) :
    merkle_root H [x] = some x
    ∧ merkle_root H ls
        = (merkle_root H (ls.take (ls.length / 2))).bind (fun left =>
            (merkle_root H (ls.drop (ls.length / 2))).bind (fun right =>
              some (H (left ++ right)))) :=
  ⟨merkle_root_single H x, merkle_root_rec H ls h2⟩

/-- Witness for C3 at a concrete leaf and a concrete three-leaf list. -/
theorem claim_C3_merkle_structure_witness :
    (2 ≤ ([[1], [2], [3]] : List Bytes).length)
    ∧ (merkle_root hashC [[7]] = some [7]
      ∧ merkle_root hashC [[1], [2], [3]]
          = (merkle_root hashC (([[1], [2], [3]] : List Bytes).take
              (([[1], [2], [3]] : List Bytes).length / 2))).bind (fun left =>
              (merkle_root hashC (([[1], [2], [3]] : List Bytes).drop
                (([[1], [2], [3]] : List Bytes).length / 2))).bind (fun right =>
                some (hashC (left ++ right))))) :=
  ⟨by decide, claim_C3_merkle_structure hashC [7] [[1], [2], [3]] (by decide)⟩

/-- Claim C6 counterexample: merkle_root on a three-leaf list, whose length
is not a power of two, succeeds instead of failing with InvalidLeafCount. -/
theorem claim_C6_counterexample :
    (merkle_root hashC [[0], [1], [2]]).isSome = true := by decide

/-- Claim C6 as amended: merkle_root checks no leaf count at all; it
succeeds on every non-empty list and fails only on the empty list (where
the source recurses without bound). -/
theorem claim_C6_no_leaf_count_check (H : Bytes → Bytes) (ls : List Bytes) :
    (merkle_root H ls).isSome ↔ ls ≠ [] :=
  merkle_root_isSome_iff H ls

/-- Verification (naive) on a signature of the wrong length compares lists
of different lengths and returns false rather than failing. -/
theorem verify_naive_wrong_length (H : Bytes → Bytes) (m : Bytes)
    (pk : List Bytes) (sig : List Nat)
    (hd : (hash_message H m).length = 32) (hpk : 512 ≤ pk.length)
    (hval : ∀ e ∈ sig, e < 2 ^ security_parameter)
    (hlen : sig.length ≠ 256) :
    verify_signature_naive H m pk sig = some false := by
  unfold verify_signature_naive
  rw [choose_key_elements_spec (hash_message H m) pk [] (by omega) hpk]
  have hder : optTraverse sig (hash_key_element H)
      = some (sig.map (fun e => H (toBytesBE (security_parameter / 8) e))) := by
    apply optTraverse_eq_map
    intro e he
    unfold hash_key_element
    rw [if_pos (hval e he)]
  rw [hder]
  simp only [Option.bind_eq_bind, Option.some_bind]
  have hne : (List.range 256).map (fun bi =>
      pk.getD (2 * bi + key_bit (hash_message H m) bi) [])
      ≠ sig.map (fun e => H (toBytesBE (security_parameter / 8) e)) := by
    intro heq
    have hlen2 := congrArg List.length heq
    simp at hlen2
    exact hlen hlen2.symm
  rw [beq_eq_false_iff_ne.mpr hne]
  rfl

/-- Verification (short private key) on a signature of the wrong length
returns false rather than failing. -/
theorem verify_short_private_wrong_length (H : Bytes → Bytes) (m : Bytes)
    (pk : List Bytes) (sig : List Bytes)
    (hd : (hash_message H m).length = 32) (hpk : 512 ≤ pk.length)
    (hlen : sig.length ≠ 256) :
    verify_signature_short_private H m pk sig = some false := by
  unfold verify_signature_short_private
  rw [choose_key_elements_spec (hash_message H m) pk [] (by omega) hpk]
  simp only [Option.bind_eq_bind, Option.some_bind]
  have hne : (List.range 256).map (fun bi =>
      pk.getD (2 * bi + key_bit (hash_message H m) bi) [])
      ≠ sig.map (hash_bytes H) := by
    intro heq
    have hlen2 := congrArg List.length heq
    simp at hlen2
    exact hlen hlen2.symm
  rw [beq_eq_false_iff_ne.mpr hne]
  rfl

/-- Key selection fails on a table of at most 510 elements: the last bit
position needs index 510 or 511. -/
theorem choose_key_elements_too_short (mh : Bytes) (key : List α)
    (hkey : key.length ≤ 510) : choose_key_elements mh key = none := by
  unfold choose_key_elements
  have houter : optTraverse (List.range (max_message_length / 8)) (fun i =>
      optTraverse (List.range 8) (fun j => do
        let mhByte ← mh[i]?
        let keyBit := if mhByte &&& (128 >>> j) != 0 then 1 else 0
        key[2 * (i * 8 + j) + keyBit]?)) = none := by
    apply optTraverse_eq_none (a := 31)
    · rw [show max_message_length / 8 = 32 from rfl]
      exact List.mem_range.mpr (by omega)
    · apply optTraverse_eq_none (a := 7)
      · exact List.mem_range.mpr (by omega)
      · show (mh[31]?).bind _ = none
        cases h31 : mh[31]? with
        | none => rfl
        | some v =>
          rw [Option.some_bind]
          show key[2 * (31 * 8 + 7) +
            (if v &&& (128 >>> 7) != 0 then 1 else 0)]? = none
          apply List.getElem?_eq_none
          split <;> omega
  rw [houter]
  rfl

/-- The promotion loop preserves the list length. -/
theorem promoteSteps_length (H : Bytes → Bytes) (bits : List Bool) :
    ∀ (is : List Nat) (cur l2 : List Bytes),
    promoteSteps H bits is cur = some l2 → l2.length = cur.length := by
  intro is
  induction is with
  | nil =>
    intro cur l2 h
    cases h
    rfl
  | cons i is ih =>
    intro cur l2 h
    rw [show promoteSteps H bits (i :: is) cur
        = (cur[if bits.getD i false then 2 * i + 1 else 2 * i]?).bind
            (fun v => promoteSteps H bits is
              (cur.set (if bits.getD i false then 2 * i + 1 else 2 * i)
                (hash_bytes H v))) from rfl] at h
    cases hk : cur[if bits.getD i false then 2 * i + 1 else 2 * i]? with
    | none => rw [hk] at h; cases h
    | some v =>
      rw [hk, Option.some_bind] at h
      have := ih _ _ h
      rwa [List.length_set] at this

/-- getD of a mapped range picks the function value, below the bound. -/
theorem getD_map_range {n i : Nat} (h : i < n) (f : Nat → β) (d : β) :
    ((List.range n).map f).getD i d = f i := by
  rw [List.getD_eq_getElem?_getD, List.getElem?_map, List.getElem?_range h]
  rfl

/-- Claim C10: in the naive and short-private-key modes, a signature whose
length differs from 256 makes verify return false (list equality of
different-length lists), not raise an error. -/
theorem claim_C10_wrong_length_returns_false (H : Bytes → Bytes) (m : Bytes)
    (pkA : List Bytes) (sigA : List Nat) (pkB sigB : List Bytes)
    (hd : (hash_message H m).length = 32)
    (hpkA : pkA.length = 2 * max_message_length)
    (hvalA : ∀ e ∈ sigA, e < 2 ^ security_parameter)
    (hsigA : sigA.length ≠ max_message_length)
    (hpkB : pkB.length = 2 * max_message_length)
    (hsigB : sigB.length ≠ max_message_length) :
    verify_signature_naive H m pkA sigA = some false
    ∧ verify_signature_short_private H m pkB sigB = some false :=
  ⟨verify_naive_wrong_length H m pkA sigA hd (by rw [hpkA]; rfl) hvalA hsigA,
   verify_short_private_wrong_length H m pkB sigB hd (by rw [hpkB]; rfl) hsigB⟩

/-- Witness for C10 with empty signatures. -/
theorem claim_C10_wrong_length_returns_false_witness :
    ((hash_message hashC []).length = 32
      ∧ (List.replicate 512 ([] : Bytes)).length = 2 * max_message_length
      ∧ (∀ e ∈ ([] : List Nat), e < 2 ^ security_parameter)
      ∧ ([] : List Nat).length ≠ max_message_length
      ∧ ([] : List Bytes).length ≠ max_message_length)
    ∧ (verify_signature_naive hashC [] (List.replicate 512 []) [] = some false
      ∧ verify_signature_short_private hashC [] (List.replicate 512 []) []
          = some false) := by
  have h1 : (hash_message hashC []).length = 32 := by simp [hash_message, hashC]
  have h2 : (List.replicate 512 ([] : Bytes)).length = 2 * max_message_length := by
    rw [List.length_replicate]
    rfl
  have h3 : ∀ e ∈ ([] : List Nat), e < 2 ^ security_parameter := by simp
  have h4 : ([] : List Nat).length ≠ max_message_length := by decide
  have h5 : ([] : List Bytes).length ≠ max_message_length := by decide
  exact ⟨⟨h1, h2, h3, h4, h5⟩,
    claim_C10_wrong_length_returns_false hashC [] (List.replicate 512 []) []
      (List.replicate 512 []) [] h1 h2 h3 h4 h2 h5⟩

/-- Claim C7 counterexample: in the naive mode, verify on an empty (hence
wrong-length) signature returns the boolean false instead of failing with a
MalformedSignature error. -/
theorem claim_C7_counterexample :
    verify_signature_naive hashC [] (List.replicate 512 []) [] = some false := by
  apply verify_naive_wrong_length
  · simp [hash_message, hashC]
  · rw [List.length_replicate]
  · simp
  · decide

/-- Claim C7 as amended: no MalformedKey or MalformedSignature validation
exists.  In the naive and short-private-key modes a wrong-length signature
makes verify return false; signing fails only when the key is too short to
supply a selected index (at most 510 elements) and succeeds on any key with
at least 512 elements; in the short-private-key mode malformed seed widths
fail at cipher construction; in the short-public-key mode a signature with
at most 510 elements makes verify fail. -/
theorem claim_C7_no_malformed_checks (H : Bytes → Bytes)
    (ks : Bytes → Bytes → Nat → Bytes) (m : Bytes)
    (pkA : List Bytes) (sigA : List Nat) (pkB sigB : List Bytes)
    (skLong skShort : List Nat) (kB nB : Bytes) (pkC : Bytes)
    (sigC : List Bytes)
    (hd : (hash_message H m).length = 32)
    (hpkA : 512 ≤ pkA.length)
    (hvalA : ∀ e ∈ sigA, e < 2 ^ security_parameter)
    (hsigA : sigA.length ≠ 256)
    (hpkB : 512 ≤ pkB.length) (hsigB : sigB.length ≠ 256)
    (hskL : 512 ≤ skLong.length) (hskS : skShort.length ≤ 510)
    (hseed : ¬(kB.length = 32 ∧ nB.length = 16))
    (hsigC : sigC.length ≤ 510) :
    verify_signature_naive H m pkA sigA = some false
    ∧ verify_signature_short_private H m pkB sigB = some false
    ∧ (sign_message_naive H m skLong).isSome
    ∧ sign_message_naive H m skShort = none
    ∧ expand_private_key ks ⟨kB, nB⟩ = none
    ∧ sign_message_short_private ks H m ⟨kB, nB⟩ = none
    ∧ verify_signature_short_public H m pkC sigC = none := by
  have hexp : expand_private_key ks ⟨kB, nB⟩ = none := by
    unfold expand_private_key
    exact if_neg hseed
  refine ⟨verify_naive_wrong_length H m pkA sigA hd hpkA hvalA hsigA,
    verify_short_private_wrong_length H m pkB sigB hd hpkB hsigB,
    ?_, ?_, hexp, ?_, ?_⟩
  · unfold sign_message_naive
    rw [choose_key_elements_spec (hash_message H m) skLong 0 (by omega) hskL]
    rfl
  · unfold sign_message_naive
    exact choose_key_elements_too_short _ _ hskS
  · unfold sign_message_short_private
    rw [hexp]
    rfl
  · rw [verify_short_public_unfold,
      show (convert_bytes_to_bits (hash_message H m)).length = 256 by
        rw [convert_bytes_to_bits_length, hd],
      promoteSteps_eq_none H _ (List.range 256) sigC 255
        (List.mem_range.mpr (by omega)) (by omega)]
    rfl

/-- Witness for the amended C7 at concrete malformed inputs. -/
theorem claim_C7_no_malformed_checks_witness :
    ((hash_message hashC []).length = 32
      ∧ 512 ≤ (List.replicate 512 ([] : Bytes)).length
      ∧ (∀ e ∈ ([] : List Nat), e < 2 ^ security_parameter)
      ∧ ([] : List Nat).length ≠ 256
      ∧ ([] : List Bytes).length ≠ 256
      ∧ 512 ≤ (List.replicate 512 (0 : Nat)).length
      ∧ ([] : List Nat).length ≤ 510
      ∧ ¬(([] : Bytes).length = 32 ∧ ([] : Bytes).length = 16)
      ∧ ([] : List Bytes).length ≤ 510)
    ∧ (verify_signature_naive hashC [] (List.replicate 512 []) [] = some false
      ∧ verify_signature_short_private hashC [] (List.replicate 512 []) []
          = some false
      ∧ (sign_message_naive hashC [] (List.replicate 512 0)).isSome
      ∧ sign_message_naive hashC [] [] = none
      ∧ expand_private_key ksC ⟨[], []⟩ = none
      ∧ sign_message_short_private ksC hashC [] ⟨[], []⟩ = none
      ∧ verify_signature_short_public hashC [] [] [] = none) := by
  have h1 : (hash_message hashC []).length = 32 := by simp [hash_message, hashC]
  have h2 : 512 ≤ (List.replicate 512 ([] : Bytes)).length := by
    rw [List.length_replicate]
  have h3 : ∀ e ∈ ([] : List Nat), e < 2 ^ security_parameter := by simp
  have h4 : ([] : List Nat).length ≠ 256 := by decide
  have h5 : ([] : List Bytes).length ≠ 256 := by decide
  have h6 : 512 ≤ (List.replicate 512 (0 : Nat)).length := by
    rw [List.length_replicate]
  have h7 : ([] : List Nat).length ≤ 510 := by decide
  have h8 : ¬(([] : Bytes).length = 32 ∧ ([] : Bytes).length = 16) := by decide
  have h9 : ([] : List Bytes).length ≤ 510 := by decide
  exact ⟨⟨h1, h2, h3, h4, h5, h6, h7, h8, h9⟩,
    claim_C7_no_malformed_checks hashC ksC [] (List.replicate 512 []) []
      (List.replicate 512 []) [] (List.replicate 512 0) [] [] [] [] []
      h1 h2 h3 h4 h2 h5 h6 h7 h8 h9⟩

/-- Claim C8: in every mode, verify on a signature of the mode's expected
shape returns a definite boolean (it never fails), whatever the signature's
content; false is the non-exceptional outcome for signatures that do not
match. -/
theorem claim_C8_verify_total (H : Bytes → Bytes) (m : Bytes)
    (pkA : List Bytes) (sigA : List Nat) (pkB sigB : List Bytes)
    (pkC : Bytes) (sigC : List Bytes)
    (hd : (hash_message H m).length = 32)
    (hpkA : pkA.length = 2 * max_message_length)
    (hvalA : ∀ e ∈ sigA, e < 2 ^ security_parameter)
    (hsigA : sigA.length = max_message_length)
    (hpkB : pkB.length = 2 * max_message_length)
    (hsigB : sigB.length = max_message_length)
    (hsigC : sigC.length = 2 * max_message_length) :
    (verify_signature_naive H m pkA sigA).isSome
    ∧ (verify_signature_short_private H m pkB sigB).isSome
    ∧ (verify_signature_short_public H m pkC sigC).isSome := by
  have hsigC512 : sigC.length = 512 := by rw [hsigC]; rfl
  refine ⟨?_, ?_, ?_⟩
  · unfold verify_signature_naive
    rw [choose_key_elements_spec (hash_message H m) pkA [] (by omega)
      (by rw [hpkA]; rfl)]
    have hder : optTraverse sigA (hash_key_element H)
        = some (sigA.map (fun e => H (toBytesBE (security_parameter / 8) e))) := by
      apply optTraverse_eq_map
      intro e he
      unfold hash_key_element
      rw [if_pos (hvalA e he)]
    rw [hder]
    rfl
  · unfold verify_signature_short_private
    rw [choose_key_elements_spec (hash_message H m) pkB [] (by omega)
      (by rw [hpkB]; rfl)]
    rfl
  · rw [verify_short_public_unfold,
      show (convert_bytes_to_bits (hash_message H m)).length = 256 by
        rw [convert_bytes_to_bits_length, hd]]
    have hprom := promoteSteps_isSome H (convert_bytes_to_bits (hash_message H m))
      (List.range 256) sigC
      (by
        intro i hi
        have : i < 256 := List.mem_range.mp hi
        omega)
    obtain ⟨modified, hmod⟩ := Option.isSome_iff_exists.mp hprom
    have hmlen := promoteSteps_length H _ _ _ _ hmod
    rw [hmod, Option.some_bind]
    have hroot : (merkle_root H modified).isSome := by
      rw [merkle_root_isSome_iff]
      apply List.ne_nil_of_length_pos
      omega
    obtain ⟨r, hr⟩ := Option.isSome_iff_exists.mp hroot
    rw [hr, Option.some_bind]
    rfl

/-- Witness for C8 at concrete well-shaped signatures. -/
theorem claim_C8_verify_total_witness :
    ((hash_message hashC []).length = 32
      ∧ (List.replicate 512 ([] : Bytes)).length = 2 * max_message_length
      ∧ (∀ e ∈ List.replicate 256 (0 : Nat), e < 2 ^ security_parameter)
      ∧ (List.replicate 256 (0 : Nat)).length = max_message_length
      ∧ (List.replicate 256 ([] : Bytes)).length = max_message_length
      ∧ (List.replicate 512 ([] : Bytes)).length = 2 * max_message_length)
    ∧ ((verify_signature_naive hashC [] (List.replicate 512 [])
          (List.replicate 256 0)).isSome
      ∧ (verify_signature_short_private hashC [] (List.replicate 512 [])
          (List.replicate 256 [])).isSome
      ∧ (verify_signature_short_public hashC [] []
          (List.replicate 512 [])).isSome) := by
  have h1 : (hash_message hashC []).length = 32 := by simp [hash_message, hashC]
  have h2 : (List.replicate 512 ([] : Bytes)).length = 2 * max_message_length := by
    rw [List.length_replicate]
    rfl
  have h3 : ∀ e ∈ List.replicate 256 (0 : Nat), e < 2 ^ security_parameter := by
    intro e he
    rw [List.eq_of_mem_replicate he]
    exact Nat.pos_pow_of_pos _ (by omega)
  have h4 : (List.replicate 256 (0 : Nat)).length = max_message_length := by
    rw [List.length_replicate]
    rfl
  have h5 : (List.replicate 256 ([] : Bytes)).length = max_message_length := by
    rw [List.length_replicate]
    rfl
  exact ⟨⟨h1, h2, h3, h4, h5, h2⟩,
    claim_C8_verify_total hashC [] (List.replicate 512 [])
      (List.replicate 256 0) (List.replicate 512 []) (List.replicate 256 [])
      [] (List.replicate 512 []) h1 h2 h3 h4 h2 h5 h2⟩

/-- Claim C9: short-public-key verification leaves the caller's signature
list unchanged: the loop's assignments act on the copy made by
signature.copy(), so the caller's value after the call is the input. -/
theorem claim_C9_verify_frame (H : Bytes → Bytes) (m : Bytes) (pk : Bytes)
    (sig : List Bytes) :
    (verify_signature_short_public_run H m pk sig).2 = sig := rfl

/-- Claim C4: short-public-key signing of a 512-element private key yields
exactly 512 elements; at bit position i the entry on the side of the digest
bit is the raw private-key element and the other entry is the hash of the
other branch's element. -/
theorem claim_C4_sign_shape (H : Bytes → Bytes) (m : Bytes) (sk : List Bytes)
    (hd : (hash_message H m).length = 32)
    (hsk : sk.length = 2 * max_message_length) :
    (sign_message_short_public H m sk).isSome
    ∧ ((sign_message_short_public H m sk).getD []).length
        = 2 * max_message_length
    ∧ ∀ i, i < 256 →
        (((sign_message_short_public H m sk).getD []).getD
            (2 * i + (if (convert_bytes_to_bits (hash_message H m)).getD i false
              then 1 else 0)) []
          = sk.getD
            (2 * i + (if (convert_bytes_to_bits (hash_message H m)).getD i false
              then 1 else 0)) [])
        ∧ (((sign_message_short_public H m sk).getD []).getD
            (2 * i + (if (convert_bytes_to_bits (hash_message H m)).getD i false
              then 0 else 1)) []
          = hash_bytes H (sk.getD
            (2 * i + (if (convert_bytes_to_bits (hash_message H m)).getD i false
              then 0 else 1)) [])) := by
  have hs := sign_short_public_spec H m sk hd (by rw [hsk]; rfl)
  rw [hs]
  simp only [Option.getD_some, Option.isSome_some]
  have hplen : ((List.range 256).map (fun i =>
      if (convert_bytes_to_bits (hash_message H m)).getD i false
      then (hash_bytes H (sk.getD (2 * i) []), sk.getD (2 * i + 1) [])
      else (sk.getD (2 * i) [], hash_bytes H (sk.getD (2 * i + 1) [])))).length
      = 256 := by simp
  refine ⟨trivial, ?_, ?_⟩
  · rw [joinPairs_length, hplen]
    rfl
  · intro i hi
    have hilen : i < ((List.range 256).map (fun i =>
        if (convert_bytes_to_bits (hash_message H m)).getD i false
        then (hash_bytes H (sk.getD (2 * i) []), sk.getD (2 * i + 1) [])
        else (sk.getD (2 * i) [], hash_bytes H (sk.getD (2 * i + 1) [])))).length := by
      rw [hplen]
      exact hi
    cases hb : (convert_bytes_to_bits (hash_message H m)).getD i false with
    | true =>
      simp only [reduceIte, Nat.add_zero]
      constructor
      · rw [joinPairs_getD_odd _ i hilen [] ([], []),
          getD_map_range hi _ ([], []), hb]
        rfl
      · rw [joinPairs_getD_even _ i hilen [] ([], []),
          getD_map_range hi _ ([], []), hb]
        rfl
    | false =>
      simp only [Bool.false_eq_true, if_false, Nat.add_zero]
      constructor
      · rw [joinPairs_getD_even _ i hilen [] ([], []),
          getD_map_range hi _ ([], []), hb]
        rfl
      · rw [joinPairs_getD_odd _ i hilen [] ([], []),
          getD_map_range hi _ ([], []), hb]
        rfl

/-- Witness for C4 at a concrete key and message. -/
theorem claim_C4_sign_shape_witness :
    ((hash_message hashC []).length = 32
      ∧ (List.replicate 512 ([] : Bytes)).length = 2 * max_message_length)
    ∧ ((sign_message_short_public hashC [] (List.replicate 512 [])).isSome
      ∧ ((sign_message_short_public hashC [] (List.replicate 512 [])).getD
          []).length = 2 * max_message_length
      ∧ ∀ i, i < 256 →
          (((sign_message_short_public hashC [] (List.replicate 512 [])).getD
              []).getD (2 * i +
                (if (convert_bytes_to_bits (hash_message hashC [])).getD i false
                  then 1 else 0)) []
            = (List.replicate 512 ([] : Bytes)).getD (2 * i +
                (if (convert_bytes_to_bits (hash_message hashC [])).getD i false
                  then 1 else 0)) [])
          ∧ (((sign_message_short_public hashC [] (List.replicate 512 [])).getD
              []).getD (2 * i +
                (if (convert_bytes_to_bits (hash_message hashC [])).getD i false
                  then 0 else 1)) []
            = hash_bytes hashC ((List.replicate 512 ([] : Bytes)).getD (2 * i +
                (if (convert_bytes_to_bits (hash_message hashC [])).getD i false
                  then 0 else 1)) []))) := by
  have h1 : (hash_message hashC []).length = 32 := by simp [hash_message, hashC]
  have h2 : (List.replicate 512 ([] : Bytes)).length = 2 * max_message_length := by
    rw [List.length_replicate]
    rfl
  exact ⟨⟨h1, h2⟩, claim_C4_sign_shape hashC [] (List.replicate 512 []) h1 h2⟩

/-- Claim C5: private-key expansion is a pure function of the (key, nonce)
seed, and signing is reproducible for the same message and seed: a fresh
encryptor starting at position zero is built on every call, so two calls
with equal seeds return identical results. -/
theorem claim_C5_expansion_deterministic (ks : Bytes → Bytes → Nat → Bytes)
    (H : Bytes → Bytes) (m : Bytes) (s1 s2 : PrivateKeySeed)
    (hk : s1.key = s2.key) (hn : s1.nonce = s2.nonce) :
    expand_private_key ks s1 = expand_private_key ks s2
    ∧ sign_message_short_private ks H m s1
        = sign_message_short_private ks H m s2 := by
  cases s1
  cases s2
  cases hk
  cases hn
  exact ⟨rfl, rfl⟩

/-- Witness for C5 at a concrete seed. -/
theorem claim_C5_expansion_deterministic_witness :
    ((⟨List.replicate 32 0, List.replicate 16 0⟩ : PrivateKeySeed).key
        = (⟨List.replicate 32 0, List.replicate 16 0⟩ : PrivateKeySeed).key
      ∧ (⟨List.replicate 32 0, List.replicate 16 0⟩ : PrivateKeySeed).nonce
        = (⟨List.replicate 32 0, List.replicate 16 0⟩ : PrivateKeySeed).nonce)
    ∧ (expand_private_key ksC ⟨List.replicate 32 0, List.replicate 16 0⟩
        = expand_private_key ksC ⟨List.replicate 32 0, List.replicate 16 0⟩
      ∧ sign_message_short_private ksC hashC []
          ⟨List.replicate 32 0, List.replicate 16 0⟩
        = sign_message_short_private ksC hashC []
          ⟨List.replicate 32 0, List.replicate 16 0⟩) :=
  ⟨⟨rfl, rfl⟩, claim_C5_expansion_deterministic ksC hashC []
    ⟨List.replicate 32 0, List.replicate 16 0⟩
    ⟨List.replicate 32 0, List.replicate 16 0⟩ rfl rfl⟩
